import Mathlib

/-!
Verification of the DRAGON repository's core algorithmic logic: the
tree-ensemble similarity kernel (`rf_kernel_matrix`) and the
prototype/counterfactual extraction procedure (`counterfactuals`,
`drifting_counterfactuals`) from `examples/Fashion-MNIST.ipynb`
(the same kernel code appears in `examples/MNIST.ipynb`).

Numpy float arrays are modelled as lists of rationals, integer arrays as
lists of integers.  Python exceptions are modelled with `Except`.
-/

namespace Dragon

/-! ## KernelBuilder

Source (Fashion-MNIST.ipynb, "Compute the RF-Kernel-Matrix" cell):

    rf_kernel_matrix = np.zeros((subset_size, subset_size))
    leaf_indices = model.apply(X_subset.reshape(-1,28*28))
    for leaf_vector in leaf_indices.T:
        rf_kernel_matrix += leaf_vector[:, None] == leaf_vector[None, :]
    rf_kernel_matrix /= leaf_indices.shape[1]

The loop accumulates, for every pair (i, j), the number of tree columns t
with `leaf_indices[i][t] == leaf_indices[j][t]`, and then divides by the
number of trees T.  `matchCount` is that per-pair accumulated count; the
code performs no input validation and raises no exception (division by
T = 0 yields NaN entries in numpy, with only a runtime warning), so the
embedding is a total function.
-/

/-- Number of positions where two leaf-index rows agree (the value the
column-wise `+=` loop accumulates at one matrix entry). -/
def matchCount (r1 r2 : List ℤ) : ℕ :=
  (r1.zip r2).countP fun p => p.1 == p.2

/-- The RF kernel matrix: entry (i, j) is the number of trees in which
samples i and j share a leaf, divided by the number of trees T
(`leaf_indices.shape[1]`, the common row length). -/
def build_kernel (leaf_indices : List (List ℤ)) : List (List ℚ) :=
  let T : ℕ := (leaf_indices.headD []).length
  leaf_indices.map fun ri => leaf_indices.map fun rj =>
    ((matchCount ri rj : ℕ) : ℚ) / (T : ℚ)

/-- Matrix entry accessor `K[i][j]`. -/
def entry (K : List (List ℚ)) (i j : ℕ) : ℚ :=
  (K.getD i []).getD j 0

/-! ### Basic list access lemmas -/

lemma getD_map_lt {α β : Type} (f : α → β) (l : List α) (i : ℕ)
    (h : i < l.length) (d : β) (d' : α) :
    (l.map f).getD i d = f (l.getD i d') := by
  induction l generalizing i with
  | nil => simp at h
  | cons a t ih =>
    cases i with
    | zero => simp
    | succ n =>
      simp only [List.map_cons, List.getD_cons_succ]
      exact ih n (by simpa using h)

lemma getD_mem {α : Type} (l : List α) (i : ℕ) (h : i < l.length) (d : α) :
    l.getD i d ∈ l := by
  induction l generalizing i with
  | nil => simp at h
  | cons a t ih =>
    cases i with
    | zero => simp
    | succ n =>
      simp only [List.getD_cons_succ]
      exact List.mem_cons_of_mem _ (ih n (by simpa using h))

lemma mem_iff_getD {α : Type} (l : List α) (a : α) (d : α) :
    a ∈ l ↔ ∃ i, i < l.length ∧ l.getD i d = a := by
  constructor
  · intro h
    induction l with
    | nil => simp at h
    | cons b t ih =>
      rcases List.mem_cons.mp h with h1 | h2
      · exact ⟨0, by simp, by simp [h1.symm]⟩
      · rcases ih h2 with ⟨i, hi, hv⟩
        exact ⟨i + 1, by simpa using Nat.succ_lt_succ hi, by simpa using hv⟩
  · rintro ⟨i, hi, hv⟩
    exact hv ▸ getD_mem l i hi d

/-! ### Kernel entry formula -/

lemma entry_build_kernel (l : List (List ℤ)) (i j : ℕ)
    (hi : i < l.length) (hj : j < l.length) :
    entry (build_kernel l) i j =
      ((matchCount (l.getD i []) (l.getD j []) : ℕ) : ℚ) /
        (((l.headD []).length : ℕ) : ℚ) := by
  unfold entry build_kernel
  rw [getD_map_lt _ l i hi _ []]
  rw [getD_map_lt _ l j hj _ []]

lemma matchCount_comm (r1 r2 : List ℤ) : matchCount r1 r2 = matchCount r2 r1 := by
  induction r1 generalizing r2 with
  | nil => cases r2 <;> simp [matchCount]
  | cons a t ih =>
    cases r2 with
    | nil => simp [matchCount]
    | cons b u =>
      simp only [matchCount, List.zip_cons_cons, List.countP_cons]
      rw [show ((a, b).1 == (a, b).2) = ((b, a).1 == (b, a).2) by
        simp [BEq.beq]; constructor <;> intro h <;> exact h.symm]
      have := ih u
      simp only [matchCount] at this
      rw [this]

lemma matchCount_self (r : List ℤ) : matchCount r r = r.length := by
  induction r with
  | nil => simp [matchCount]
  | cons a t ih =>
    simp only [matchCount, List.zip_cons_cons, List.countP_cons] at *
    simp [ih]

lemma matchCount_le (r1 r2 : List ℤ) : matchCount r1 r2 ≤ r1.length := by
  calc matchCount r1 r2 ≤ (r1.zip r2).length := List.countP_le_length _
  _ ≤ r1.length := by rw [List.length_zip]; exact Nat.min_le_left _ _

/-- The count of agreeing positions, as the cardinality of the set of tree
indices on which the two rows agree (the spec's formulation). -/
lemma matchCount_eq_card (r1 r2 : List ℤ) (T : ℕ)
    (h1 : r1.length = T) (h2 : r2.length = T) :
    matchCount r1 r2 =
      ((Finset.range T).filter fun t => r1.getD t 0 = r2.getD t 0).card := by
  induction T generalizing r1 r2 with
  | zero =>
    rw [List.length_eq_zero.mp h1, List.length_eq_zero.mp h2]
    simp [matchCount]
  | succ n ih =>
    cases r1 with
    | nil => simp at h1
    | cons a t =>
      cases r2 with
      | nil => simp at h2
      | cons b u =>
        have ht : t.length = n := by simpa using h1
        have hu : u.length = n := by simpa using h2
        have hcard : ((Finset.range (n + 1)).filter fun s =>
            (a :: t).getD s 0 = (b :: u).getD s 0).card =
            (if a = b then 1 else 0) +
            ((Finset.range n).filter fun s => t.getD s 0 = u.getD s 0).card := by
          rw [Finset.card_filter, Finset.card_filter, Finset.sum_range_succ']
          simp only [List.getD_cons_succ, List.getD_cons_zero]
          rw [Nat.add_comm]
        rw [hcard, ← ih t u ht hu]
        simp only [matchCount, List.zip_cons_cons, List.countP_cons]
        by_cases hab : a = b
        · simp [hab, Nat.add_comm]
        · simp [hab, show ¬((a, b).1 == (a, b).2) = true by simpa using hab]

/-! ## Region labeling

Source (Fashion-MNIST.ipynb, `theta_decision` cell):

    y_pred = model.predict_proba(X_subset)[:,0]
    has_drift = 2*np.abs(y_pred-0.5) > 1-theta_decision
    before_drift = y_pred > 0.5
    regions = (has_drift*(2*before_drift-1)).astype(int)

Booleans multiply as 0/1 integers, so per sample the region is
`has_drift * (2*before_drift - 1)`.
-/

/-- Per-sample region label from the predicted probability `p` of the
"before" class and threshold `theta` (the element-wise rule applied by the
`regions = (has_drift*(2*before_drift-1)).astype(int)` line). -/
def region_of (p theta : ℚ) : ℤ :=
  let has_drift : ℤ := if 2 * |p - 1/2| > 1 - theta then 1 else 0
  let before_drift : ℤ := if p > 1/2 then 1 else 0
  has_drift * (2 * before_drift - 1)

/-! ## PrototypeExplainer

Source (Fashion-MNIST.ipynb, "Compute Characteristic Samples and
Counterfactual" cell):

    counterfactuals = []
    for cluster_id in np.unique(cluster):
        cf = dict()
        cf["region_dist"] = np.eye(3)[regions[cluster == cluster_id]+1].mean(axis=0)
        cf["region"] = [-1,0,1][np.argmax(cf["region_dist"])]
        cf["sample_euc"] = dict()
        cf["sample_rfk"] = dict()
        cf["proto_rfk"] = proj_proto = proj[cluster == cluster_id].mean(axis=0)
        cf["proto_euc"] = X_proto = X_subset[cluster == cluster_id].mean(axis=0)
        for region in [-1,0,1]:
            sel = np.where(regions == region)[0]
            cf["sample_euc"][region] = sel[np.argmin( ((X_subset[sel] - X_proto)**2).sum(axis=1) )]
            cf["sample_rfk"][region] = sel[np.argmin( ((proj[sel] - proj_proto)**2).sum(axis=1) )]
        counterfactuals.append(cf)

`np.argmin` raises `ValueError` on an empty selection; the spec names that
failure `NoCandidateInRegion`.  The other error kinds named by the spec
are listed for completeness.
-/

/-- The spec's error kinds for the core operations. -/
inductive CoreError where
  | ShapeMismatch
  | EmptyInput
  | EmptyCluster
  | NoCandidateInRegion
deriving DecidableEq

/-- One per-cluster record (the dict `cf` built by the loop).  The sample
tables are association lists over the region keys `[-1, 0, 1]`. -/
structure ClusterRecord where
  region_dist : List ℚ
  region : ℤ
  sample_euc : List (ℤ × ℕ)
  sample_rfk : List (ℤ × ℕ)
  proto_rfk : List ℚ
  proto_euc : List ℚ
deriving DecidableEq

/-- `np.where(l == v)[0]`: the ascending list of indices holding value `v`. -/
def whereEq (l : List ℤ) (v : ℤ) : List ℕ :=
  (List.range l.length).filter fun i => l.getD i 0 == v

/-- `np.eye(3)[r+1]`: the one-hot row selected by `r + 1` (bins ordered
`[-1, 0, 1]`). -/
def onehot3 (r : ℤ) : List ℚ :=
  [if r + 1 = 0 then 1 else 0, if r + 1 = 1 then 1 else 0, if r + 1 = 2 then 1 else 0]

/-- Pointwise sum of two vectors. -/
def vecAdd (a b : List ℚ) : List ℚ :=
  (a.zip b).map fun p => p.1 + p.2

/-- `rows.mean(axis=0)` for a stack of equal-length rows: accumulate and
divide by the number of rows. -/
def meanRows (rows : List (List ℚ)) : List ℚ :=
  (rows.foldl vecAdd (List.replicate (rows.headD []).length 0)).map
    fun x => x / ((rows.length : ℕ) : ℚ)

/-- `np.eye(3)[regs+1].mean(axis=0)`: the cluster's empirical region
distribution over the bins `[-1, 0, 1]`. -/
def regionDist (regs : List ℤ) : List ℚ :=
  meanRows (regs.map onehot3)

/-- `np.argmin`: index of the first minimum of a list (0 on `[]`, where
numpy instead raises; callers guard non-emptiness). -/
def argminIdx : List ℚ → ℕ
  | [] => 0
  | d :: rest =>
    match rest with
    | [] => 0
    | e :: rest2 =>
      let j := argminIdx (e :: rest2)
      if d ≤ (e :: rest2).getD j 0 then 0 else j + 1

/-- `np.argmax`: index of the first maximum of a list. -/
def argmaxIdx : List ℚ → ℕ
  | [] => 0
  | d :: rest =>
    match rest with
    | [] => 0
    | e :: rest2 =>
      let j := argmaxIdx (e :: rest2)
      if d < (e :: rest2).getD j 0 then j + 1 else 0

/-- Squared Euclidean distance `((a - b)**2).sum()`. -/
def sqDist (a b : List ℚ) : ℚ :=
  ((a.zip b).map fun p => (p.1 - p.2) ^ 2).sum

/-- `sel[np.argmin(((data[sel] - proto)**2).sum(axis=1))]`: the subset
index among `sel` whose row of `data` is closest to `proto`. -/
def pick (data : List (List ℚ)) (proto : List ℚ) (sel : List ℕ) : ℕ :=
  sel.getD (argminIdx (sel.map fun i => sqDist (data.getD i []) proto)) 0

/-- The guarded selection: `np.argmin` raises on an empty selection, which
the spec calls `NoCandidateInRegion`. -/
def sampleFor (data : List (List ℚ)) (proto : List ℚ) (sel : List ℕ) :
    Except CoreError ℕ :=
  if sel = [] then .error .NoCandidateInRegion else .ok (pick data proto sel)

/-- The body of the per-cluster loop: region distribution, arg-max verdict,
the two prototypes, and the two three-entry sample tables (regions iterated
in the order `[-1, 0, 1]`, Euclidean table before kernel table as in the
source loop). -/
def buildRecord (raw proj : List (List ℚ)) (regions cluster : List ℤ)
    (cid : ℤ) : Except CoreError ClusterRecord := do
  let members := whereEq cluster cid
  let dist := regionDist (members.map fun i => regions.getD i 0)
  let verdict := ([-1, 0, 1] : List ℤ).getD (argmaxIdx dist) 0
  let proto_euc := meanRows (members.map fun i => raw.getD i [])
  let proto_rfk := meanRows (members.map fun i => proj.getD i [])
  let s_euc_m ← sampleFor raw proto_euc (whereEq regions (-1))
  let s_rfk_m ← sampleFor proj proto_rfk (whereEq regions (-1))
  let s_euc_0 ← sampleFor raw proto_euc (whereEq regions 0)
  let s_rfk_0 ← sampleFor proj proto_rfk (whereEq regions 0)
  let s_euc_p ← sampleFor raw proto_euc (whereEq regions 1)
  let s_rfk_p ← sampleFor proj proto_rfk (whereEq regions 1)
  return { region_dist := dist, region := verdict,
           sample_euc := [(-1, s_euc_m), (0, s_euc_0), (1, s_euc_p)],
           sample_rfk := [(-1, s_rfk_m), (0, s_rfk_0), (1, s_rfk_p)],
           proto_rfk := proto_rfk, proto_euc := proto_euc }

/-- Error-propagating map (Python's loop stops at the first raised
exception). -/
def mapE {α β : Type} (f : α → Except CoreError β) : List α → Except CoreError (List β)
  | [] => .ok []
  | a :: l => do
    let b ← f a
    let r ← mapE f l
    return b :: r

/-- `np.unique`: the sorted list of distinct values occurring in `l`. -/
def uniqueSorted (l : List ℤ) : List ℤ :=
  l.dedup.insertionSort (fun a b => a ≤ b)

/-- The full per-cluster pass (`for cluster_id in np.unique(cluster): ...`).
`num_clusters` is the requested cluster count of the external clustering
routine; the loop itself never consults it. -/
def explain (embedding : List (List ℚ)) (regions : List ℤ)
    (raw_features : List (List ℚ)) (cluster_assignment : List ℤ)
    (num_clusters : ℕ) : Except CoreError (List ClusterRecord) :=
  mapE (buildRecord raw_features embedding regions cluster_assignment)
    (uniqueSorted cluster_assignment)

/-- Source ("Plot Counterfactuals" cell):
`drifting_counterfactuals = list(filter(lambda cf: cf["region"] != 0, counterfactuals))`. -/
def drifting_counterfactuals (cfs : List ClusterRecord) : List ClusterRecord :=
  cfs.filter fun cf => cf.region != 0

/-- The pairs of sample indices the counterfactual plot reads per kept
cluster: for each metric the entry at the cluster's own verdict
(`rel_region = 1`) and at the opposite verdict (`rel_region = -1`). -/
def emitPairs (cfs : List ClusterRecord) :
    List ((Option ℕ × Option ℕ) × (Option ℕ × Option ℕ)) :=
  (drifting_counterfactuals cfs).map fun cf =>
    ((cf.sample_euc.lookup cf.region, cf.sample_euc.lookup (-cf.region)),
     (cf.sample_rfk.lookup cf.region, cf.sample_rfk.lookup (-cf.region)))

/-! ### Except and mapE lemmas -/

lemma ok_bind {α β : Type} (a : α) (f : α → Except CoreError β) :
    (Except.ok a >>= f) = f a := rfl

lemma error_bind {α β : Type} (e : CoreError) (f : α → Except CoreError β) :
    ((Except.error e : Except CoreError α) >>= f) = Except.error e := rfl

lemma mapE_ok_length {α β : Type} (f : α → Except CoreError β) (l : List α)
    (r : List β) (h : mapE f l = .ok r) : r.length = l.length := by
  induction l generalizing r with
  | nil =>
    simp only [mapE] at h
    cases h
    rfl
  | cons a t ih =>
    simp only [mapE] at h
    cases hfa : f a with
    | error e => rw [hfa, error_bind] at h; cases h
    | ok b =>
      rw [hfa, ok_bind] at h
      cases hmt : mapE f t with
      | error e => rw [hmt, error_bind] at h; cases h
      | ok rt =>
        rw [hmt, ok_bind] at h
        cases h
        simp [ih rt hmt]

lemma mapE_ok_get {α β : Type} (f : α → Except CoreError β) (l : List α)
    (r : List β) (h : mapE f l = .ok r) (i : ℕ) (a : α)
    (ha : l.get? i = some a) :
    ∃ b, r.get? i = some b ∧ f a = .ok b := by
  induction l generalizing r i with
  | nil => simp at ha
  | cons x t ih =>
    simp only [mapE] at h
    cases hfx : f x with
    | error e => rw [hfx, error_bind] at h; cases h
    | ok b =>
      rw [hfx, ok_bind] at h
      cases hmt : mapE f t with
      | error e => rw [hmt, error_bind] at h; cases h
      | ok rt =>
        rw [hmt, ok_bind] at h
        cases h
        cases i with
        | zero =>
          simp only [List.get?_cons_zero] at ha
          cases ha
          exact ⟨b, rfl, hfx⟩
        | succ n =>
          simp only [List.get?_cons_succ] at ha ⊢
          exact ih rt hmt n ha

lemma mapE_ok_mem {α β : Type} (f : α → Except CoreError β) (l : List α)
    (r : List β) (h : mapE f l = .ok r) (b : β) (hb : b ∈ r) :
    ∃ a ∈ l, f a = .ok b := by
  induction l generalizing r with
  | nil =>
    simp only [mapE] at h
    cases h
    simp at hb
  | cons x t ih =>
    simp only [mapE] at h
    cases hfx : f x with
    | error e => rw [hfx, error_bind] at h; cases h
    | ok c =>
      rw [hfx, ok_bind] at h
      cases hmt : mapE f t with
      | error e => rw [hmt, error_bind] at h; cases h
      | ok rt =>
        rw [hmt, ok_bind] at h
        cases h
        rcases List.mem_cons.mp hb with h1 | h2
        · exact ⟨x, List.mem_cons_self _ _, h1 ▸ hfx⟩
        · rcases ih rt hmt h2 with ⟨a, hal, hfa⟩
          exact ⟨a, List.mem_cons_of_mem _ hal, hfa⟩

lemma mapE_cons_error {α β : Type} (f : α → Except CoreError β) (a : α)
    (t : List α) (e : CoreError) (h : f a = .error e) :
    mapE f (a :: t) = .error e := by
  simp only [mapE]
  rw [h, error_bind]

lemma mapE_error {α β : Type} (f : α → Except CoreError β) (l : List α)
    (e : CoreError) (h : mapE f l = .error e) : ∃ a ∈ l, f a = .error e := by
  induction l with
  | nil => simp [mapE] at h
  | cons x t ih =>
    simp only [mapE] at h
    cases hfx : f x with
    | error e2 =>
      rw [hfx, error_bind] at h
      cases h
      exact ⟨x, List.mem_cons_self _ _, hfx⟩
    | ok b =>
      rw [hfx, ok_bind] at h
      cases hmt : mapE f t with
      | error e2 =>
        rw [hmt, error_bind] at h
        cases h
        rcases ih hmt with ⟨a, hal, hfa⟩
        exact ⟨a, List.mem_cons_of_mem _ hal, hfa⟩
      | ok rt => rw [hmt, ok_bind] at h; cases h

/-! ### whereEq lemmas -/

lemma mem_whereEq (l : List ℤ) (v : ℤ) (i : ℕ) :
    i ∈ whereEq l v ↔ i < l.length ∧ l.getD i 0 = v := by
  simp [whereEq, List.mem_filter, List.mem_range]

lemma whereEq_eq_nil (l : List ℤ) (v : ℤ) :
    whereEq l v = [] ↔ v ∉ l := by
  constructor
  · intro h hv
    rcases (mem_iff_getD l v 0).mp hv with ⟨i, hi, hiv⟩
    have : i ∈ whereEq l v := (mem_whereEq l v i).mpr ⟨hi, hiv⟩
    rw [h] at this
    simp at this
  · intro h
    by_contra hne
    rcases List.exists_mem_of_ne_nil _ hne with ⟨i, hi⟩
    rcases (mem_whereEq l v i).mp hi with ⟨hlen, hval⟩
    exact h ((mem_iff_getD l v 0).mpr ⟨i, hlen, hval⟩)

lemma whereEq_ne_nil_of_mem (l : List ℤ) (v : ℤ) (h : v ∈ l) :
    whereEq l v ≠ [] := by
  intro hnil
  exact (whereEq_eq_nil l v).mp hnil h

/-! ### argmin / argmax lemmas -/

lemma argminIdx_lt (ds : List ℚ) (h : ds ≠ []) : argminIdx ds < ds.length := by
  induction ds with
  | nil => exact absurd rfl h
  | cons d rest ih =>
    cases rest with
    | nil => simp [argminIdx]
    | cons e rest2 =>
      simp only [argminIdx]
      split
      · simp
      · have := ih (by simp)
        simpa using Nat.succ_lt_succ this

lemma argminIdx_min (ds : List ℚ) (k : ℕ) (hk : k < ds.length) :
    ds.getD (argminIdx ds) 0 ≤ ds.getD k 0 := by
  induction ds generalizing k with
  | nil => simp at hk
  | cons d rest ih =>
    cases rest with
    | nil =>
      cases k with
      | zero => simp [argminIdx]
      | succ n => simp at hk
    | cons e rest2 =>
      simp only [argminIdx]
      split
      · rename_i hle
        cases k with
        | zero => simp
        | succ n =>
          simp only [List.getD_cons_zero, List.getD_cons_succ]
          exact le_trans hle (ih n (by simpa using hk))
      · rename_i hgt
        push_neg at hgt
        cases k with
        | zero =>
          simp only [List.getD_cons_zero, List.getD_cons_succ]
          exact le_of_lt hgt
        | succ n =>
          simp only [List.getD_cons_succ]
          exact ih n (by simpa using hk)

lemma argmaxIdx_lt (ds : List ℚ) (h : ds ≠ []) : argmaxIdx ds < ds.length := by
  induction ds with
  | nil => exact absurd rfl h
  | cons d rest ih =>
    cases rest with
    | nil => simp [argmaxIdx]
    | cons e rest2 =>
      simp only [argmaxIdx]
      split
      · have := ih (by simp)
        simpa using Nat.succ_lt_succ this
      · simp

lemma argmaxIdx_max (ds : List ℚ) (k : ℕ) (hk : k < ds.length) :
    ds.getD k 0 ≤ ds.getD (argmaxIdx ds) 0 := by
  induction ds generalizing k with
  | nil => simp at hk
  | cons d rest ih =>
    cases rest with
    | nil =>
      cases k with
      | zero => simp [argmaxIdx]
      | succ n => simp at hk
    | cons e rest2 =>
      simp only [argmaxIdx]
      split
      · rename_i hlt
        cases k with
        | zero =>
          simp only [List.getD_cons_zero, List.getD_cons_succ]
          exact le_of_lt hlt
        | succ n =>
          simp only [List.getD_cons_succ]
          exact ih n (by simpa using hk)
      · rename_i hge
        push_neg at hge
        cases k with
        | zero => simp
        | succ n =>
          simp only [List.getD_cons_zero, List.getD_cons_succ]
          exact le_trans (ih n (by simpa using hk)) hge

/-! ### pick lemmas -/

lemma pick_mem (data : List (List ℚ)) (proto : List ℚ) (sel : List ℕ)
    (h : sel ≠ []) : pick data proto sel ∈ sel := by
  unfold pick
  have hlen : (sel.map fun i => sqDist (data.getD i []) proto).length = sel.length := by
    simp
  have hlt : argminIdx (sel.map fun i => sqDist (data.getD i []) proto) < sel.length := by
    rw [← hlen]
    exact argminIdx_lt _ (by simpa using h)
  exact getD_mem sel _ hlt 0

lemma pick_min (data : List (List ℚ)) (proto : List ℚ) (sel : List ℕ)
    (h : sel ≠ []) (j : ℕ) (hj : j ∈ sel) :
    sqDist (data.getD (pick data proto sel) []) proto ≤
      sqDist (data.getD j []) proto := by
  unfold pick
  set ds := sel.map fun i => sqDist (data.getD i []) proto with hds
  have hlen : ds.length = sel.length := by simp [hds]
  have hlt : argminIdx ds < sel.length := by
    rw [← hlen]
    exact argminIdx_lt _ (by simp [hds]; simpa using h)
  rcases (mem_iff_getD sel j 0).mp hj with ⟨k, hk, hkv⟩
  have h1 : ds.getD (argminIdx ds) 0 ≤ ds.getD k 0 :=
    argminIdx_min ds k (by rw [hlen]; exact hk)
  have h2 : ds.getD k 0 = sqDist (data.getD j []) proto := by
    rw [hds, getD_map_lt _ sel k hk _ 0, hkv]
  have h3 : ds.getD (argminIdx ds) 0 =
      sqDist (data.getD (sel.getD (argminIdx ds) 0) []) proto := by
    rw [hds, getD_map_lt _ sel (argminIdx ds) hlt _ 0]
  rw [h3, h2] at h1
  exact h1

/-! ### meanRows lemmas -/

lemma vecAdd_length (a b : List ℚ) : (vecAdd a b).length = min a.length b.length := by
  simp [vecAdd]

lemma vecAdd_getD (a b : List ℚ) (k : ℕ) (ha : k < a.length) (hb : k < b.length) :
    (vecAdd a b).getD k 0 = a.getD k 0 + b.getD k 0 := by
  induction a generalizing b k with
  | nil => simp at ha
  | cons x t ih =>
    cases b with
    | nil => simp at hb
    | cons y u =>
      cases k with
      | zero => simp [vecAdd]
      | succ n =>
        simp only [vecAdd, List.zip_cons_cons, List.map_cons, List.getD_cons_succ]
        exact ih u n (by simpa using ha) (by simpa using hb)

lemma foldl_vecAdd_length (rows : List (List ℚ)) (init : List ℚ) (D : ℕ)
    (hrows : ∀ r ∈ rows, r.length = D) (hinit : init.length = D) :
    (rows.foldl vecAdd init).length = D := by
  induction rows generalizing init with
  | nil => simpa using hinit
  | cons r t ih =>
    simp only [List.foldl_cons]
    refine ih _ (fun s hs => hrows s (List.mem_cons_of_mem _ hs)) ?_
    rw [vecAdd_length, hinit, hrows r (List.mem_cons_self _ _)]
    simp

lemma foldl_vecAdd_getD (rows : List (List ℚ)) (init : List ℚ) (D : ℕ)
    (hrows : ∀ r ∈ rows, r.length = D) (hinit : init.length = D)
    (k : ℕ) (hk : k < D) :
    (rows.foldl vecAdd init).getD k 0 =
      init.getD k 0 + (rows.map fun r => r.getD k 0).sum := by
  induction rows generalizing init with
  | nil => simp
  | cons r t ih =>
    simp only [List.foldl_cons, List.map_cons, List.sum_cons]
    have hr : r.length = D := hrows r (List.mem_cons_self _ _)
    have hlen : (vecAdd init r).length = D := by
      rw [vecAdd_length, hinit, hr]; simp
    rw [ih (vecAdd init r) (fun s hs => hrows s (List.mem_cons_of_mem _ hs)) hlen]
    rw [vecAdd_getD init r k (hinit ▸ hk) (hr ▸ hk)]
    ring

lemma meanRows_length (rows : List (List ℚ)) (D : ℕ)
    (hrows : ∀ r ∈ rows, r.length = D) (hne : rows ≠ []) :
    (meanRows rows).length = D := by
  have hh : (rows.headD []).length = D := by
    cases rows with
    | nil => exact absurd rfl hne
    | cons r t => exact hrows r (List.mem_cons_self _ _)
  unfold meanRows
  rw [List.length_map]
  exact foldl_vecAdd_length rows _ D hrows (by rw [List.length_replicate]; exact hh)

lemma meanRows_getD (rows : List (List ℚ)) (D : ℕ)
    (hrows : ∀ r ∈ rows, r.length = D) (hne : rows ≠ []) (k : ℕ) (hk : k < D) :
    (meanRows rows).getD k 0 =
      (rows.map fun r => r.getD k 0).sum / ((rows.length : ℕ) : ℚ) := by
  have hh : (rows.headD []).length = D := by
    cases rows with
    | nil => exact absurd rfl hne
    | cons r t => exact hrows r (List.mem_cons_self _ _)
  unfold meanRows
  have hflen : (rows.foldl vecAdd (List.replicate (rows.headD []).length 0)).length = D :=
    foldl_vecAdd_length rows _ D hrows (by rw [List.length_replicate]; exact hh)
  rw [getD_map_lt _ _ k (by rw [hflen]; exact hk) _ 0]
  rw [foldl_vecAdd_getD rows _ D hrows (by rw [List.length_replicate]; exact hh) k hk]
  have : (List.replicate (rows.headD []).length (0 : ℚ)).getD k 0 = 0 := by
    rcases Nat.lt_or_ge k (rows.headD []).length with h | h
    · rw [List.getD_eq_getElem _ _ (by simpa using h)]
      simp
    · exact List.getD_eq_default _ _ (by simpa using h)
  rw [this, zero_add]

/-! ### regionDist lemmas -/

lemma onehot3_length (r : ℤ) : (onehot3 r).length = 3 := by
  simp [onehot3]

lemma onehot3_getD0 (r : ℤ) : (onehot3 r).getD 0 0 = if r = -1 then (1 : ℚ) else 0 := by
  by_cases h : r = -1
  · subst h; norm_num [onehot3]
  · have h2 : r + 1 ≠ 0 := by omega
    simp [onehot3, h, h2]

lemma onehot3_getD1 (r : ℤ) : (onehot3 r).getD 1 0 = if r = 0 then (1 : ℚ) else 0 := by
  by_cases h : r = 0
  · subst h; norm_num [onehot3]
  · have h2 : r + 1 ≠ 1 := by omega
    simp [onehot3, h, h2]

lemma onehot3_getD2 (r : ℤ) : (onehot3 r).getD 2 0 = if r = 1 then (1 : ℚ) else 0 := by
  by_cases h : r = 1
  · subst h; norm_num [onehot3]
  · have h2 : r + 1 ≠ 2 := by omega
    simp [onehot3, h, h2]

lemma sum_map_indicator (v : ℤ) (regs : List ℤ) :
    (regs.map fun r => if r = v then (1 : ℚ) else 0).sum = (regs.count v : ℕ) := by
  induction regs with
  | nil => simp
  | cons a t ih =>
    simp only [List.map_cons, List.sum_cons, ih, List.count_cons]
    by_cases h : a = v
    · simp [h, add_comm]
    · have h2 : ¬(a == v) = true := by simpa using h
      simp [h, h2]

/-- The region distribution of a non-empty member list is the vector of
bin frequencies `[count (-1), count 0, count 1] / m`. -/
lemma regionDist_eq (regs : List ℤ) (hne : regs ≠ []) :
    regionDist regs =
      [((regs.count (-1) : ℕ) : ℚ) / ((regs.length : ℕ) : ℚ),
       ((regs.count 0 : ℕ) : ℚ) / ((regs.length : ℕ) : ℚ),
       ((regs.count 1 : ℕ) : ℚ) / ((regs.length : ℕ) : ℚ)] := by
  have hrows : ∀ r ∈ regs.map onehot3, r.length = 3 := by
    intro r hr
    rcases List.mem_map.mp hr with ⟨x, _, hx⟩
    rw [← hx]
    exact onehot3_length x
  have hne2 : regs.map onehot3 ≠ [] := by
    intro h
    exact hne (List.map_eq_nil_iff.mp h)
  have hlen : (regionDist regs).length = 3 :=
    meanRows_length _ 3 hrows hne2
  have hmaplen : (regs.map onehot3).length = regs.length := List.length_map _ _
  have hentry : ∀ k, k < 3 →
      (regionDist regs).getD k 0 =
        ((regs.map onehot3).map fun r => r.getD k 0).sum / ((regs.length : ℕ) : ℚ) := by
    intro k hk
    unfold regionDist
    rw [meanRows_getD _ 3 hrows hne2 k hk, hmaplen]
  have h0 : (regionDist regs).getD 0 0 =
      ((regs.count (-1) : ℕ) : ℚ) / ((regs.length : ℕ) : ℚ) := by
    rw [hentry 0 (by norm_num), List.map_map]
    rw [show ((fun r => r.getD 0 0) ∘ onehot3) =
      fun r : ℤ => if r = -1 then (1 : ℚ) else 0 from funext fun r => onehot3_getD0 r]
    rw [sum_map_indicator]
  have h1 : (regionDist regs).getD 1 0 =
      ((regs.count 0 : ℕ) : ℚ) / ((regs.length : ℕ) : ℚ) := by
    rw [hentry 1 (by norm_num), List.map_map]
    rw [show ((fun r => r.getD 1 0) ∘ onehot3) =
      fun r : ℤ => if r = 0 then (1 : ℚ) else 0 from funext fun r => onehot3_getD1 r]
    rw [sum_map_indicator]
  have h2 : (regionDist regs).getD 2 0 =
      ((regs.count 1 : ℕ) : ℚ) / ((regs.length : ℕ) : ℚ) := by
    rw [hentry 2 (by norm_num), List.map_map]
    rw [show ((fun r => r.getD 2 0) ∘ onehot3) =
      fun r : ℤ => if r = 1 then (1 : ℚ) else 0 from funext fun r => onehot3_getD2 r]
    rw [sum_map_indicator]
  cases hd : regionDist regs with
  | nil => rw [hd] at hlen; simp at hlen
  | cons x0 t0 =>
    cases t0 with
    | nil => rw [hd] at hlen; simp at hlen
    | cons x1 t1 =>
      cases t1 with
      | nil => rw [hd] at hlen; simp at hlen
      | cons x2 t2 =>
        cases t2 with
        | nil =>
          rw [hd] at h0 h1 h2
          simp only [List.getD_cons_zero, List.getD_cons_succ] at h0 h1 h2
          rw [h0, h1, h2]
        | cons x3 t3 => rw [hd] at hlen; simp at hlen

/-! ### buildRecord characterization -/

lemma sampleFor_error {data : List (List ℚ)} {proto : List ℚ} {sel : List ℕ}
    {e : CoreError} (h : sampleFor data proto sel = .error e) :
    e = .NoCandidateInRegion ∧ sel = [] := by
  unfold sampleFor at h
  split at h
  · cases h
    exact ⟨rfl, by assumption⟩
  · cases h

lemma sampleFor_ok_of_ne {data : List (List ℚ)} {proto : List ℚ} {sel : List ℕ}
    (h : sel ≠ []) : sampleFor data proto sel = .ok (pick data proto sel) := by
  unfold sampleFor
  simp [h]

/-- Closed form of the per-cluster loop body: it fails (with the error numpy
raises at `np.argmin` of an empty selection) exactly when one of the three
region selections over the whole subset is empty, and otherwise returns the
record of verdict, prototypes and arg-min sample tables. -/
lemma buildRecord_spec (raw proj : List (List ℚ)) (regions cluster : List ℤ)
    (cid : ℤ) :
    buildRecord raw proj regions cluster cid =
      if whereEq regions (-1) = [] ∨ whereEq regions 0 = [] ∨ whereEq regions 1 = []
      then .error .NoCandidateInRegion
      else
        .ok { region_dist := regionDist ((whereEq cluster cid).map fun i => regions.getD i 0),
              region := ([-1, 0, 1] : List ℤ).getD
                (argmaxIdx (regionDist ((whereEq cluster cid).map fun i => regions.getD i 0))) 0,
              sample_euc :=
                [(-1, pick raw (meanRows ((whereEq cluster cid).map fun i => raw.getD i []))
                        (whereEq regions (-1))),
                 (0, pick raw (meanRows ((whereEq cluster cid).map fun i => raw.getD i []))
                        (whereEq regions 0)),
                 (1, pick raw (meanRows ((whereEq cluster cid).map fun i => raw.getD i []))
                        (whereEq regions 1))],
              sample_rfk :=
                [(-1, pick proj (meanRows ((whereEq cluster cid).map fun i => proj.getD i []))
                        (whereEq regions (-1))),
                 (0, pick proj (meanRows ((whereEq cluster cid).map fun i => proj.getD i []))
                        (whereEq regions 0)),
                 (1, pick proj (meanRows ((whereEq cluster cid).map fun i => proj.getD i []))
                        (whereEq regions 1))],
              proto_rfk := meanRows ((whereEq cluster cid).map fun i => proj.getD i []),
              proto_euc := meanRows ((whereEq cluster cid).map fun i => raw.getD i []) } := by
  by_cases hm : whereEq regions (-1) = []
  · simp only [hm, true_or, if_pos]
    simp only [buildRecord]
    rw [show sampleFor raw _ (whereEq regions (-1)) = .error .NoCandidateInRegion by
      rw [hm]; rfl]
    rw [error_bind]
  · by_cases h0 : whereEq regions 0 = []
    · simp only [hm, h0, true_or, or_true, if_pos]
      simp only [buildRecord]
      rw [sampleFor_ok_of_ne hm, ok_bind, sampleFor_ok_of_ne hm, ok_bind]
      rw [show sampleFor raw _ (whereEq regions 0) = .error .NoCandidateInRegion by
        rw [h0]; rfl]
      rw [error_bind]
    · by_cases h1 : whereEq regions 1 = []
      · simp only [hm, h0, h1, or_true, if_pos]
        simp only [buildRecord]
        rw [sampleFor_ok_of_ne hm, ok_bind, sampleFor_ok_of_ne hm, ok_bind,
          sampleFor_ok_of_ne h0, ok_bind, sampleFor_ok_of_ne h0, ok_bind]
        rw [show sampleFor raw _ (whereEq regions 1) = .error .NoCandidateInRegion by
          rw [h1]; rfl]
        rw [error_bind]
      · simp only [hm, h0, h1, or_self, if_neg, not_false_eq_true, false_or]
        simp only [buildRecord]
        rw [sampleFor_ok_of_ne hm, ok_bind, sampleFor_ok_of_ne hm, ok_bind,
          sampleFor_ok_of_ne h0, ok_bind, sampleFor_ok_of_ne h0, ok_bind,
          sampleFor_ok_of_ne h1, ok_bind, sampleFor_ok_of_ne h1, ok_bind]
        rfl

/-! ### uniqueSorted lemmas -/

lemma uniqueSorted_perm_dedup (l : List ℤ) : (uniqueSorted l).Perm l.dedup :=
  List.perm_insertionSort _ _

lemma mem_uniqueSorted (l : List ℤ) (a : ℤ) : a ∈ uniqueSorted l ↔ a ∈ l := by
  rw [(uniqueSorted_perm_dedup l).mem_iff, List.mem_dedup]

lemma uniqueSorted_nodup (l : List ℤ) : (uniqueSorted l).Nodup :=
  (uniqueSorted_perm_dedup l).symm.nodup (List.nodup_dedup l)

lemma uniqueSorted_sorted_le (l : List ℤ) :
    (uniqueSorted l).Sorted (fun a b => a ≤ b) :=
  List.sorted_insertionSort _ _

lemma uniqueSorted_sorted_lt (l : List ℤ) :
    (uniqueSorted l).Sorted (fun a b => a < b) := by
  have hs := uniqueSorted_sorted_le l
  have hn := uniqueSorted_nodup l
  unfold List.Sorted at hs ⊢
  exact List.Pairwise.imp₂ (fun a b hab hne => lt_of_le_of_ne hab hne) hs hn

lemma uniqueSorted_ne_nil (l : List ℤ) (h : l ≠ []) : uniqueSorted l ≠ [] := by
  intro hnil
  rcases List.exists_mem_of_ne_nil _ h with ⟨a, ha⟩
  have : a ∈ uniqueSorted l := (mem_uniqueSorted l a).mpr ha
  rw [hnil] at this
  simp at this

/-! ### argmax over three bins -/

lemma argmaxIdx_three_eq (a b c : ℚ) :
    argmaxIdx [a, b, c] =
      if b < c then (if a < c then 2 else 0) else (if a < b then 1 else 0) := by
  by_cases hbc : b < c <;> by_cases hac : a < c <;> by_cases hab : a < b <;>
    simp [argmaxIdx, hbc, hac, hab]

lemma argmax3_eq_zero_iff (a b c : ℚ) :
    argmaxIdx [a, b, c] = 0 ↔ b ≤ a ∧ c ≤ a := by
  rw [argmaxIdx_three_eq]
  by_cases hbc : b < c
  · by_cases hac : a < c
    · rw [if_pos hbc, if_pos hac]
      constructor
      · intro h; exact absurd h (by omega)
      · rintro ⟨h1, h2⟩; exfalso; linarith
    · rw [if_pos hbc, if_neg hac]
      push_neg at hac
      exact ⟨fun h => ⟨by linarith, by linarith⟩, fun h => rfl⟩
  · by_cases hab : a < b
    · rw [if_neg hbc, if_pos hab]
      constructor
      · intro h; exact absurd h (by omega)
      · rintro ⟨h1, h2⟩; exfalso; linarith
    · rw [if_neg hbc, if_neg hab]
      push_neg at hbc hab
      exact ⟨fun h => ⟨by linarith, by linarith⟩, fun h => rfl⟩

lemma argmax3_eq_one_iff (a b c : ℚ) :
    argmaxIdx [a, b, c] = 1 ↔ a < b ∧ c ≤ b := by
  rw [argmaxIdx_three_eq]
  by_cases hbc : b < c
  · by_cases hac : a < c
    · rw [if_pos hbc, if_pos hac]
      constructor
      · intro h; exact absurd h (by omega)
      · rintro ⟨h1, h2⟩; exfalso; linarith
    · rw [if_pos hbc, if_neg hac]
      push_neg at hac
      constructor
      · intro h; exact absurd h (by omega)
      · rintro ⟨h1, h2⟩; exfalso; linarith
  · by_cases hab : a < b
    · rw [if_neg hbc, if_pos hab]
      push_neg at hbc
      exact ⟨fun h => ⟨hab, hbc⟩, fun h => rfl⟩
    · rw [if_neg hbc, if_neg hab]
      constructor
      · intro h; exact absurd h (by omega)
      · rintro ⟨h1, h2⟩; exact absurd h1 hab

lemma argmax3_eq_two_iff (a b c : ℚ) :
    argmaxIdx [a, b, c] = 2 ↔ a < c ∧ b < c := by
  rw [argmaxIdx_three_eq]
  by_cases hbc : b < c
  · by_cases hac : a < c
    · rw [if_pos hbc, if_pos hac]
      exact ⟨fun h => ⟨hac, hbc⟩, fun h => rfl⟩
    · rw [if_pos hbc, if_neg hac]
      constructor
      · intro h; exact absurd h (by omega)
      · rintro ⟨h1, h2⟩; exact absurd h1 hac
  · by_cases hab : a < b
    · rw [if_neg hbc, if_pos hab]
      constructor
      · intro h; exact absurd h (by omega)
      · rintro ⟨h1, h2⟩; exact absurd h2 hbc
    · rw [if_neg hbc, if_neg hab]
      constructor
      · intro h; exact absurd h (by omega)
      · rintro ⟨h1, h2⟩; exact absurd h2 hbc

/-- The verdict `[-1,0,1][argmax dist]` over a three-entry distribution,
characterized by the arg-max inequalities with first-bin tie-break. -/
lemma verdict_three (a b c : ℚ) :
    ((([-1, 0, 1] : List ℤ).getD (argmaxIdx [a, b, c]) 0 = -1 ↔ b ≤ a ∧ c ≤ a) ∧
     (([-1, 0, 1] : List ℤ).getD (argmaxIdx [a, b, c]) 0 = 0 ↔ a < b ∧ c ≤ b) ∧
     (([-1, 0, 1] : List ℤ).getD (argmaxIdx [a, b, c]) 0 = 1 ↔ a < c ∧ b < c)) := by
  have h0 := argmax3_eq_zero_iff a b c
  have h1 := argmax3_eq_one_iff a b c
  have h2 := argmax3_eq_two_iff a b c
  have hlt : argmaxIdx [a, b, c] < 3 := argmaxIdx_lt [a, b, c] (by simp)
  set n := argmaxIdx [a, b, c] with hn
  interval_cases n
  · exact ⟨⟨fun _ => h0.mp rfl, fun _ => rfl⟩,
      ⟨fun hx => absurd hx (by decide), fun hx => absurd (h1.mpr hx) (by omega)⟩,
      ⟨fun hx => absurd hx (by decide), fun hx => absurd (h2.mpr hx) (by omega)⟩⟩
  · exact ⟨⟨fun hx => absurd hx (by decide), fun hx => absurd (h0.mpr hx) (by omega)⟩,
      ⟨fun _ => h1.mp rfl, fun _ => rfl⟩,
      ⟨fun hx => absurd hx (by decide), fun hx => absurd (h2.mpr hx) (by omega)⟩⟩
  · exact ⟨⟨fun hx => absurd hx (by decide), fun hx => absurd (h0.mpr hx) (by omega)⟩,
      ⟨fun hx => absurd hx (by decide), fun hx => absurd (h1.mpr hx) (by omega)⟩,
      ⟨fun _ => h2.mp rfl, fun _ => rfl⟩⟩

/-! ### headD helper -/

lemma headD_mem {α : Type} (l : List α) (d : α) (h : l ≠ []) : l.headD d ∈ l := by
  cases l with
  | nil => exact absurd rfl h
  | cons a t => simp

/-! ## Claim theorems -/

/-- C1: for every rectangular N×T integer matrix `leaf_indices` with N ≥ 1
and T ≥ 1, `build_kernel` returns the N×N matrix with entry (i, j) equal to
(1/T) times the number of trees t on which rows i and j agree; in
particular, for `[[1,5],[1,5],[2,5],[2,6]]` the result is
`[[1,1,.5,0],[1,1,.5,0],[.5,.5,1,.5],[0,0,.5,1]]`. -/
theorem C1_kernel_entry_formula (l : List (List ℤ)) (N T i j : ℕ)
    (hN : l.length = N) (hrect : ∀ row ∈ l, row.length = T)
    (hN1 : 1 ≤ N) (hT1 : 1 ≤ T) (hi : i < N) (hj : j < N) :
    entry (build_kernel l) i j =
      (1 / (T : ℚ)) *
        (((Finset.range T).filter fun t =>
          (l.getD i []).getD t 0 = (l.getD j []).getD t 0).card : ℚ) ∧
    build_kernel [[1,5],[1,5],[2,5],[2,6]] =
      [[1,1,1/2,0],[1,1,1/2,0],[1/2,1/2,1,1/2],[0,0,1/2,1]] := by
  have hl : l ≠ [] := by
    intro h
    rw [h] at hN
    simp at hN
    omega
  have hhead : (l.headD []).length = T := hrect _ (headD_mem l [] hl)
  constructor
  · rw [entry_build_kernel l i j (by rw [hN]; exact hi) (by rw [hN]; exact hj), hhead]
    rw [matchCount_eq_card (l.getD i []) (l.getD j []) T
      (hrect _ (getD_mem l i (by rw [hN]; exact hi) []))
      (hrect _ (getD_mem l j (by rw [hN]; exact hj) []))]
    ring
  · norm_num [build_kernel, matchCount]

theorem C1_kernel_entry_formula_witness :
    entry (build_kernel [[1,5],[1,5],[2,5],[2,6]]) 0 2 =
      (1 / (2 : ℚ)) *
        (((Finset.range 2).filter fun t =>
          (([[1,5],[1,5],[2,5],[2,6]] : List (List ℤ)).getD 0 []).getD t 0 =
          (([[1,5],[1,5],[2,5],[2,6]] : List (List ℤ)).getD 2 []).getD t 0).card : ℚ) ∧
    build_kernel [[1,5],[1,5],[2,5],[2,6]] =
      [[1,1,1/2,0],[1,1,1/2,0],[1/2,1/2,1,1/2],[0,0,1/2,1]] :=
  C1_kernel_entry_formula [[1,5],[1,5],[2,5],[2,6]] 4 2 0 2 rfl
    (by intro row hr; fin_cases hr <;> rfl)
    (by norm_num) (by norm_num) (by norm_num) (by norm_num)

/-- C2: for p ∈ [0,1] and theta ∈ [0,1), the region label is 0 iff
2·|p − 0.5| ≤ 1 − theta, and otherwise equals sign(p − 0.5). -/
theorem C2_region_rule (p theta : ℚ) (hp0 : 0 ≤ p) (hp1 : p ≤ 1)
    (ht0 : 0 ≤ theta) (ht1 : theta < 1) :
    (region_of p theta = 0 ↔ 2 * |p - 1/2| ≤ 1 - theta) ∧
    (1 - theta < 2 * |p - 1/2| →
      (p > 1/2 → region_of p theta = 1) ∧ (p < 1/2 → region_of p theta = -1)) := by
  simp only [region_of]
  by_cases hd : 2 * |p - 1/2| > 1 - theta
  · rw [if_pos hd]
    by_cases hb : p > 1/2
    · rw [if_pos hb]
      constructor
      · constructor
        · intro h; exact absurd h (by norm_num)
        · intro h; exfalso; linarith
      · intro _
        exact ⟨fun _ => by norm_num, fun hlt => absurd hb (by linarith)⟩
    · rw [if_neg hb]
      constructor
      · constructor
        · intro h; exact absurd h (by norm_num)
        · intro h; exfalso; linarith
      · intro _
        exact ⟨fun hgt => absurd hgt hb, fun _ => by norm_num⟩
  · rw [if_neg hd]
    push_neg at hd
    constructor
    · constructor
      · intro _; exact hd
      · intro _; norm_num
    · intro hlt; exfalso; linarith

theorem C2_region_rule_witness :
    region_of (1/2) (3/5) = 0 ∧ region_of 1 (3/5) = 1 ∧
    region_of 0 (3/5) = -1 ∧ region_of (3/4) (3/5) = 1 := by
  have h12 := C2_region_rule (1/2) (3/5) (by norm_num) (by norm_num)
    (by norm_num) (by norm_num)
  have h34 := C2_region_rule (3/4) (3/5) (by norm_num) (by norm_num)
    (by norm_num) (by norm_num)
  have h1 := C2_region_rule 1 (3/5) (by norm_num) (by norm_num)
    (by norm_num) (by norm_num)
  have h0 := C2_region_rule 0 (3/5) (by norm_num) (by norm_num)
    (by norm_num) (by norm_num)
  refine ⟨h12.1.mpr (by norm_num), (h1.2 (by norm_num [abs_of_nonneg])).1 (by norm_num),
    (h0.2 ?_).2 (by norm_num), (h34.2 ?_).1 (by norm_num)⟩
  · rw [show |(0 : ℚ) - 1/2| = 1/2 by norm_num [abs_of_nonpos]]
    norm_num
  · rw [show |(3/4 : ℚ) - 1/2| = 1/4 by norm_num [abs_of_nonneg]]
    norm_num

/-- C4: for every rectangular N×T integer `leaf_indices` with N ≥ 1 and
T ≥ 1, the kernel matrix is symmetric, has unit diagonal, and has all
entries in [0, 1]. -/
theorem C4_kernel_matrix_props (l : List (List ℤ)) (N T : ℕ)
    (hN : l.length = N) (hrect : ∀ row ∈ l, row.length = T)
    (hN1 : 1 ≤ N) (hT1 : 1 ≤ T) :
    (∀ i j, i < N → j < N →
      entry (build_kernel l) i j = entry (build_kernel l) j i) ∧
    (∀ i, i < N → entry (build_kernel l) i i = 1) ∧
    (∀ i j, i < N → j < N →
      0 ≤ entry (build_kernel l) i j ∧ entry (build_kernel l) i j ≤ 1) := by
  have hl : l ≠ [] := by
    intro h
    rw [h] at hN
    simp at hN
    omega
  have hhead : (l.headD []).length = T := hrect _ (headD_mem l [] hl)
  have hT0 : (0 : ℚ) < (T : ℚ) := by
    have : 0 < T := hT1
    exact_mod_cast this
  refine ⟨?_, ?_, ?_⟩
  · intro i j hi hj
    rw [entry_build_kernel l i j (by rw [hN]; exact hi) (by rw [hN]; exact hj),
      entry_build_kernel l j i (by rw [hN]; exact hj) (by rw [hN]; exact hi),
      matchCount_comm]
  · intro i hi
    rw [entry_build_kernel l i i (by rw [hN]; exact hi) (by rw [hN]; exact hi),
      hhead, matchCount_self, hrect _ (getD_mem l i (by rw [hN]; exact hi) [])]
    exact div_self (ne_of_gt hT0)
  · intro i j hi hj
    rw [entry_build_kernel l i j (by rw [hN]; exact hi) (by rw [hN]; exact hj), hhead]
    constructor
    · apply div_nonneg _ (le_of_lt hT0)
      exact_mod_cast Nat.zero_le _
    · rw [div_le_one hT0]
      have hle : matchCount (l.getD i []) (l.getD j []) ≤ T := by
        calc matchCount (l.getD i []) (l.getD j []) ≤ (l.getD i []).length :=
          matchCount_le _ _
        _ = T := hrect _ (getD_mem l i (by rw [hN]; exact hi) [])
      exact_mod_cast hle

theorem C4_kernel_matrix_props_witness :
    entry (build_kernel [[1,5],[1,5],[2,5],[2,6]]) 0 2 =
      entry (build_kernel [[1,5],[1,5],[2,5],[2,6]]) 2 0 ∧
    entry (build_kernel [[1,5],[1,5],[2,5],[2,6]]) 1 1 = 1 ∧
    (0 ≤ entry (build_kernel [[1,5],[1,5],[2,5],[2,6]]) 0 3 ∧
      entry (build_kernel [[1,5],[1,5],[2,5],[2,6]]) 0 3 ≤ 1) := by
  have h := C4_kernel_matrix_props [[1,5],[1,5],[2,5],[2,6]] 4 2 rfl
    (by intro row hr; fin_cases hr <;> rfl) (by norm_num) (by norm_num)
  exact ⟨h.1 0 2 (by norm_num) (by norm_num), h.2.1 1 (by norm_num),
    h.2.2 0 3 (by norm_num) (by norm_num)⟩

/-- C7 counterexample: the kernel computation performs no `EmptyInput`
validation and returns a value (rather than failing) on the degenerate
rectangular inputs the claim says must fail eagerly: N = 0 returns the
empty 0×0 matrix, and T = 0 divides by zero yet still returns a 3×3
matrix (in numpy the entries are NaN with only a runtime warning and no
exception; in the rational embedding, where x / 0 = 0, they are zeros —
either way a value is returned, not a terminal failure). -/
theorem C7_counterexample :
    build_kernel [] = ([] : List (List ℚ)) ∧
    build_kernel [[], [], ([] : List ℤ)] = [[0,0,0],[0,0,0],[0,0,0]] := by
  refine ⟨rfl, ?_⟩
  norm_num [build_kernel, matchCount]

/-- C7 amended: on the rectangular inputs the code actually receives from
`model.apply`, `build_kernel` performs no input validation and never
fails; it is a total function returning an N×N matrix (N the number of
input rows) even when N = 0 or T = 0, so the spec's eager
`EmptyInput`/`ShapeMismatch` failures do not exist in the code. -/
theorem C7_no_validation (l : List (List ℤ))
    (hrect : ∀ row ∈ l, row.length = (l.headD []).length) :
    (build_kernel l).length = l.length ∧
    ∀ row ∈ build_kernel l, row.length = l.length := by
  constructor
  · simp [build_kernel]
  · intro row hr
    unfold build_kernel at hr
    rcases List.mem_map.mp hr with ⟨ri, _, hri⟩
    rw [← hri]
    simp

theorem C7_no_validation_witness :
    (build_kernel [[], [], ([] : List ℤ)]).length = 3 ∧
    ((build_kernel [[], [], ([] : List ℤ)]).getD 0 []).length = 3 := by
  have h := C7_no_validation [[], [], ([] : List ℤ)]
    (by intro row hr; fin_cases hr <;> rfl)
  refine ⟨by rw [h.1]; rfl, ?_⟩
  have hmem : (build_kernel [[], [], ([] : List ℤ)]).getD 0 [] ∈
      build_kernel [[], [], ([] : List ℤ)] :=
    getD_mem _ 0 (by rw [h.1]; norm_num) []
  rw [h.2 _ hmem]
  rfl

/-! ### Concrete witness inputs

A three-sample subset with one-dimensional features, one sample per region
value, used to instantiate the explainer theorems on concrete data. -/

def embW : List (List ℚ) := [[0], [0], [1]]

def regsW : List ℤ := [-1, 0, 1]

def rawW : List (List ℚ) := [[0], [0], [1]]

def clW : List ℤ := [0, 1, 0]

def cW0 : ClusterRecord :=
  ⟨[1/2, 0, 1/2], -1, [(-1, 0), (0, 1), (1, 2)], [(-1, 0), (0, 1), (1, 2)], [1/2], [1/2]⟩

def cW1 : ClusterRecord :=
  ⟨[0, 1, 0], 0, [(-1, 0), (0, 1), (1, 2)], [(-1, 0), (0, 1), (1, 2)], [0], [0]⟩

lemma explainW : explain embW regsW rawW clW 2 = .ok [cW0, cW1] := by
  norm_num [explain, mapE, buildRecord, uniqueSorted, whereEq, sampleFor, pick,
    regionDist, meanRows, vecAdd, onehot3, argminIdx, argmaxIdx, sqDist,
    List.dedup, List.insertionSort, List.orderedInsert, List.replicate,
    List.zip_cons_cons, List.zip_nil_left, List.zip_nil_right,
    embW, regsW, rawW, clW, cW0, cW1,
    ok_bind, error_bind, show List.range 3 = [0, 1, 2] from rfl]

/-! ### Record extraction helpers -/

lemma explain_rec (emb : List (List ℚ)) (regions : List ℤ)
    (raw : List (List ℚ)) (cl : List ℤ) (K : ℕ) (recs : List ClusterRecord)
    (idx : ℕ) (cid : ℤ) (c : ClusterRecord)
    (hok : explain emb regions raw cl K = .ok recs)
    (hcid : (uniqueSorted cl).get? idx = some cid)
    (hrec : recs.get? idx = some c) :
    buildRecord raw emb regions cl cid = .ok c := by
  unfold explain at hok
  rcases mapE_ok_get _ _ _ hok idx cid hcid with ⟨b, hb, hfb⟩
  rw [hrec] at hb
  cases hb
  exact hfb

lemma buildRecord_ok (raw proj : List (List ℚ)) (regions cluster : List ℤ)
    (cid : ℤ) (c : ClusterRecord)
    (h : buildRecord raw proj regions cluster cid = .ok c) :
    whereEq regions (-1) ≠ [] ∧ whereEq regions 0 ≠ [] ∧ whereEq regions 1 ≠ [] ∧
    c = { region_dist := regionDist ((whereEq cluster cid).map fun i => regions.getD i 0),
          region := ([-1, 0, 1] : List ℤ).getD
            (argmaxIdx (regionDist ((whereEq cluster cid).map fun i => regions.getD i 0))) 0,
          sample_euc :=
            [(-1, pick raw (meanRows ((whereEq cluster cid).map fun i => raw.getD i []))
                    (whereEq regions (-1))),
             (0, pick raw (meanRows ((whereEq cluster cid).map fun i => raw.getD i []))
                    (whereEq regions 0)),
             (1, pick raw (meanRows ((whereEq cluster cid).map fun i => raw.getD i []))
                    (whereEq regions 1))],
          sample_rfk :=
            [(-1, pick proj (meanRows ((whereEq cluster cid).map fun i => proj.getD i []))
                    (whereEq regions (-1))),
             (0, pick proj (meanRows ((whereEq cluster cid).map fun i => proj.getD i []))
                    (whereEq regions 0)),
             (1, pick proj (meanRows ((whereEq cluster cid).map fun i => proj.getD i []))
                    (whereEq regions 1))],
          proto_rfk := meanRows ((whereEq cluster cid).map fun i => proj.getD i []),
          proto_euc := meanRows ((whereEq cluster cid).map fun i => raw.getD i []) } := by
  rw [buildRecord_spec] at h
  split at h
  · cases h
  · rename_i hcond
    push_neg at hcond
    cases h
    exact ⟨hcond.1, hcond.2.1, hcond.2.2, rfl⟩

/-- C8: explain fails with the missing-candidate error (the `ValueError`
numpy raises at `np.argmin` of an empty selection, named
`NoCandidateInRegion` by the spec) whenever some region value in
{-1, 0, 1} occurs at no sample of the subset and at least one cluster
exists. -/
theorem C8_no_candidate_error (emb : List (List ℚ)) (regions : List ℤ)
    (raw : List (List ℚ)) (cl : List ℤ) (K : ℕ) (hcl : cl ≠ [])
    (hmissing : (-1 : ℤ) ∉ regions ∨ (0 : ℤ) ∉ regions ∨ (1 : ℤ) ∉ regions) :
    explain emb regions raw cl K = .error .NoCandidateInRegion := by
  unfold explain
  obtain ⟨c0, rest, hus⟩ : ∃ c0 rest, uniqueSorted cl = c0 :: rest := by
    cases h : uniqueSorted cl with
    | nil => exact absurd h (uniqueSorted_ne_nil cl hcl)
    | cons a t => exact ⟨a, t, rfl⟩
  rw [hus]
  apply mapE_cons_error
  rw [buildRecord_spec, if_pos]
  rcases hmissing with h | h | h
  · exact Or.inl ((whereEq_eq_nil regions (-1)).mpr h)
  · exact Or.inr (Or.inl ((whereEq_eq_nil regions 0).mpr h))
  · exact Or.inr (Or.inr ((whereEq_eq_nil regions 1).mpr h))

theorem C8_no_candidate_error_witness :
    ([0] : List ℤ) ≠ [] ∧
    explain [[0]] [0] [[0]] [0] 1 = .error .NoCandidateInRegion :=
  ⟨by simp, C8_no_candidate_error [[0]] [0] [[0]] [0] 1 (by simp)
    (Or.inl (by decide))⟩

/-- C9 counterexample: a cluster assignment in which cluster id 1 (of
`num_clusters` = 3) has no members; `explain` does not fail with
`EmptyCluster` — it returns normally, with records only for the two
present ids 0 and 2. -/
theorem C9_counterexample :
    explain [[0], [0], [1]] [-1, 0, 1] [[0], [0], [1]] [0, 0, 2] 3 =
      .ok [⟨[1/2, 1/2, 0], -1, [(-1, 0), (0, 1), (1, 2)], [(-1, 0), (0, 1), (1, 2)], [0], [0]⟩,
           ⟨[0, 0, 1], 1, [(-1, 0), (0, 1), (1, 2)], [(-1, 0), (0, 1), (1, 2)], [1], [1]⟩] := by
  norm_num [explain, mapE, buildRecord, uniqueSorted, whereEq, sampleFor, pick,
    regionDist, meanRows, vecAdd, onehot3, argminIdx, argmaxIdx, sqDist,
    List.dedup, List.insertionSort, List.orderedInsert, List.replicate,
    List.zip_cons_cons, List.zip_nil_left, List.zip_nil_right,
    ok_bind, error_bind, show List.range 3 = [0, 1, 2] from rfl]

/-- C9 amended: an empty cluster is silently skipped, never averaged:
`explain` iterates only the distinct ids present in the assignment and
never produces the `EmptyCluster` error; the requested cluster count has
no effect on the result. -/
theorem C9_empty_cluster_skipped (emb : List (List ℚ)) (regions : List ℤ)
    (raw : List (List ℚ)) (cl : List ℤ) (K K2 : ℕ) :
    explain emb regions raw cl K ≠ .error .EmptyCluster ∧
    explain emb regions raw cl K = explain emb regions raw cl K2 := by
  constructor
  · intro h
    unfold explain at h
    rcases mapE_error _ _ _ h with ⟨cid, _, hrec⟩
    rw [buildRecord_spec] at hrec
    split at hrec
    · simp at hrec
    · simp at hrec
  · rfl

theorem C9_empty_cluster_skipped_witness :
    explain [[0], [0], [1]] [-1, 0, 1] [[0], [0], [1]] [0, 0, 2] 3 ≠
      .error .EmptyCluster :=
  (C9_empty_cluster_skipped [[0], [0], [1]] [-1, 0, 1] [[0], [0], [1]]
    [0, 0, 2] 3 99).1

/-- C10: explain produces exactly one record per distinct cluster id
present in the assignment, iterated in strictly ascending id order;
absent ids are silently skipped, so the record count equals the number of
distinct assigned ids. -/
theorem C10_one_record_per_present_id (emb : List (List ℚ)) (regions : List ℤ)
    (raw : List (List ℚ)) (cl : List ℤ) (K : ℕ) (recs : List ClusterRecord)
    (hok : explain emb regions raw cl K = .ok recs) :
    recs.length = (uniqueSorted cl).length ∧
    (uniqueSorted cl).Sorted (fun a b => a < b) ∧
    (∀ a : ℤ, a ∈ uniqueSorted cl ↔ a ∈ cl) ∧
    (∀ idx cid, (uniqueSorted cl).get? idx = some cid →
      ∃ c, recs.get? idx = some c ∧ buildRecord raw emb regions cl cid = .ok c) := by
  unfold explain at hok
  refine ⟨mapE_ok_length _ _ _ hok, uniqueSorted_sorted_lt cl,
    mem_uniqueSorted cl, ?_⟩
  intro idx cid hcid
  exact mapE_ok_get _ _ _ hok idx cid hcid

theorem C10_one_record_per_present_id_witness :
    ([cW0, cW1] : List ClusterRecord).length = (uniqueSorted clW).length ∧
    (uniqueSorted clW).Sorted (fun a b => a < b) ∧
    (uniqueSorted clW).length = 2 := by
  have h := C10_one_record_per_present_id embW regsW rawW clW 2 [cW0, cW1] explainW
  exact ⟨h.1, h.2.1, by decide⟩

/-! ### Per-cluster helper definitions and lemmas -/

/-- `regions[cluster == cluster_id]`: the region values of the cluster's
members. -/
def memberRegions (regions cl : List ℤ) (cid : ℤ) : List ℤ :=
  (whereEq cl cid).map fun i => regions.getD i 0

/-- The average over the cluster's members of the one-hot bin of region
value `v` (the bin's entry of the empirical region distribution). -/
def binShare (regions cl : List ℤ) (cid v : ℤ) : ℚ :=
  (((memberRegions regions cl cid).count v : ℕ) : ℚ) /
    (((memberRegions regions cl cid).length : ℕ) : ℚ)

lemma regionDist_binShare (regions cl : List ℤ) (cid : ℤ)
    (h : whereEq cl cid ≠ []) :
    regionDist ((whereEq cl cid).map fun i => regions.getD i 0) =
      [binShare regions cl cid (-1), binShare regions cl cid 0,
       binShare regions cl cid 1] := by
  have hm : ((whereEq cl cid).map fun i => regions.getD i 0) ≠ [] :=
    fun hh => h (List.map_eq_nil_iff.mp hh)
  rw [regionDist_eq _ hm]
  simp only [binShare, memberRegions]

lemma proto_entry (data : List (List ℚ)) (cl : List ℤ) (cid : ℤ) (D : ℕ)
    (hlen : data.length = cl.length)
    (hD : ∀ row ∈ data, row.length = D)
    (hwne : whereEq cl cid ≠ []) (k : ℕ) (hk : k < D) :
    (meanRows ((whereEq cl cid).map fun i => data.getD i [])).getD k 0 =
      ((whereEq cl cid).map fun i => (data.getD i []).getD k 0).sum /
        (((whereEq cl cid).length : ℕ) : ℚ) := by
  have hrows : ∀ row ∈ (whereEq cl cid).map fun i => data.getD i [],
      row.length = D := by
    intro row hr
    rcases List.mem_map.mp hr with ⟨i, hi, hrow⟩
    rcases (mem_whereEq cl cid i).mp hi with ⟨hilt, _⟩
    rw [← hrow]
    exact hD _ (getD_mem data i (by rw [hlen]; exact hilt) [])
  have hne : ((whereEq cl cid).map fun i => data.getD i []) ≠ [] :=
    fun h => hwne (List.map_eq_nil_iff.mp h)
  rw [meanRows_getD _ D hrows hne k hk]
  rw [List.map_map, List.length_map]
  rfl

lemma sample_min (data : List (List ℚ)) (regions : List ℤ) (proto : List ℚ)
    (r : ℤ) (hne : whereEq regions r ≠ []) :
    pick data proto (whereEq regions r) < regions.length ∧
    regions.getD (pick data proto (whereEq regions r)) 0 = r ∧
    ∀ j, j < regions.length → regions.getD j 0 = r →
      sqDist (data.getD (pick data proto (whereEq regions r)) []) proto ≤
        sqDist (data.getD j []) proto := by
  have hsmem := pick_mem data proto _ hne
  rcases (mem_whereEq regions r _).mp hsmem with ⟨hlt, hval⟩
  refine ⟨hlt, hval, ?_⟩
  intro j hj hjv
  exact pick_min data proto _ hne j ((mem_whereEq regions r j).mpr ⟨hj, hjv⟩)

lemma verdict_getD_mem (n : ℕ) :
    ([-1, 0, 1] : List ℤ).getD n 0 = -1 ∨ ([-1, 0, 1] : List ℤ).getD n 0 = 0 ∨
    ([-1, 0, 1] : List ℤ).getD n 0 = 1 := by
  match n with
  | 0 => exact Or.inl rfl
  | 1 => exact Or.inr (Or.inl rfl)
  | 2 => exact Or.inr (Or.inr rfl)
  | (m + 3) =>
    refine Or.inr (Or.inl (List.getD_eq_default _ _ ?_))
    simp

/-- C3: a cluster's verdict is the region value in {-1, 0, 1} whose
one-hot bin has maximal average over the cluster's members, bins ordered
[-1, 0, 1] with the first bin winning exact ties. -/
theorem C3_region_verdict (emb : List (List ℚ)) (regions : List ℤ)
    (raw : List (List ℚ)) (cl : List ℤ) (K : ℕ) (recs : List ClusterRecord)
    (idx : ℕ) (cid : ℤ) (c : ClusterRecord)
    (hok : explain emb regions raw cl K = .ok recs)
    (hcid : (uniqueSorted cl).get? idx = some cid)
    (hrec : recs.get? idx = some c) :
    c.region_dist =
      [binShare regions cl cid (-1), binShare regions cl cid 0,
       binShare regions cl cid 1] ∧
    (c.region = -1 ↔
      binShare regions cl cid 0 ≤ binShare regions cl cid (-1) ∧
      binShare regions cl cid 1 ≤ binShare regions cl cid (-1)) ∧
    (c.region = 0 ↔
      binShare regions cl cid (-1) < binShare regions cl cid 0 ∧
      binShare regions cl cid 1 ≤ binShare regions cl cid 0) ∧
    (c.region = 1 ↔
      binShare regions cl cid (-1) < binShare regions cl cid 1 ∧
      binShare regions cl cid 0 < binShare regions cl cid 1) := by
  have hbr := explain_rec emb regions raw cl K recs idx cid c hok hcid hrec
  obtain ⟨hm1, hm2, hm3, hceq⟩ := buildRecord_ok raw emb regions cl cid c hbr
  have hcin : cid ∈ cl := (mem_uniqueSorted cl cid).mp (List.get?_mem hcid)
  have hwne : whereEq cl cid ≠ [] := whereEq_ne_nil_of_mem cl cid hcin
  rw [hceq]
  dsimp only
  rw [regionDist_binShare regions cl cid hwne]
  exact ⟨rfl, verdict_three _ _ _⟩

theorem C3_region_verdict_witness :
    cW0.region_dist =
      [binShare regsW clW 0 (-1), binShare regsW clW 0 0, binShare regsW clW 0 1] ∧
    cW0.region = -1 := by
  have h := C3_region_verdict embW regsW rawW clW 2 [cW0, cW1] 0 0 cW0
    explainW (by decide) rfl
  refine ⟨h.1, h.2.1.mpr ⟨?_, ?_⟩⟩ <;>
    norm_num [binShare, memberRegions, whereEq, regsW, clW,
      show List.range 3 = [0, 1, 2] from rfl]

/-- C5: a cluster's prototypes are the member means of the raw features
and of the embedding coordinates, and for every region value in {-1,0,1}
the sample tables hold the index, over the entire subset's samples of that
region, minimizing the squared Euclidean distance to the respective
prototype. -/
theorem C5_prototypes_and_nearest (emb : List (List ℚ)) (regions : List ℤ)
    (raw : List (List ℚ)) (cl : List ℤ) (K : ℕ) (recs : List ClusterRecord)
    (idx : ℕ) (cid : ℤ) (c : ClusterRecord) (D d : ℕ)
    (hok : explain emb regions raw cl K = .ok recs)
    (hcid : (uniqueSorted cl).get? idx = some cid)
    (hrec : recs.get? idx = some c)
    (hlenr : raw.length = cl.length) (hlene : emb.length = cl.length)
    (hrawD : ∀ row ∈ raw, row.length = D)
    (hembd : ∀ row ∈ emb, row.length = d) :
    (∀ k, k < D → c.proto_euc.getD k 0 =
      ((whereEq cl cid).map fun i => (raw.getD i []).getD k 0).sum /
        (((whereEq cl cid).length : ℕ) : ℚ)) ∧
    (∀ k, k < d → c.proto_rfk.getD k 0 =
      ((whereEq cl cid).map fun i => (emb.getD i []).getD k 0).sum /
        (((whereEq cl cid).length : ℕ) : ℚ)) ∧
    (∀ r, r ∈ ([-1, 0, 1] : List ℤ) → ∃ s,
      c.sample_euc.lookup r = some s ∧ s < regions.length ∧
      regions.getD s 0 = r ∧
      ∀ j, j < regions.length → regions.getD j 0 = r →
        sqDist (raw.getD s []) c.proto_euc ≤ sqDist (raw.getD j []) c.proto_euc) ∧
    (∀ r, r ∈ ([-1, 0, 1] : List ℤ) → ∃ s,
      c.sample_rfk.lookup r = some s ∧ s < regions.length ∧
      regions.getD s 0 = r ∧
      ∀ j, j < regions.length → regions.getD j 0 = r →
        sqDist (emb.getD s []) c.proto_rfk ≤ sqDist (emb.getD j []) c.proto_rfk) := by
  have hbr := explain_rec emb regions raw cl K recs idx cid c hok hcid hrec
  obtain ⟨hm1, hm2, hm3, hceq⟩ := buildRecord_ok raw emb regions cl cid c hbr
  have hcin : cid ∈ cl := (mem_uniqueSorted cl cid).mp (List.get?_mem hcid)
  have hwne : whereEq cl cid ≠ [] := whereEq_ne_nil_of_mem cl cid hcin
  rw [hceq]
  dsimp only
  refine ⟨?_, ?_, ?_, ?_⟩
  · intro k hk
    exact proto_entry raw cl cid D hlenr hrawD hwne k hk
  · intro k hk
    exact proto_entry emb cl cid d hlene hembd hwne k hk
  · intro r hr
    rcases List.mem_cons.mp hr with h | hr2
    · subst h
      rcases sample_min raw regions _ (-1) hm1 with ⟨ha, hb, hc⟩
      exact ⟨_, rfl, ha, hb, hc⟩
    rcases List.mem_cons.mp hr2 with h | hr3
    · subst h
      rcases sample_min raw regions _ 0 hm2 with ⟨ha, hb, hc⟩
      exact ⟨_, rfl, ha, hb, hc⟩
    rcases List.mem_cons.mp hr3 with h | hr4
    · subst h
      rcases sample_min raw regions _ 1 hm3 with ⟨ha, hb, hc⟩
      exact ⟨_, rfl, ha, hb, hc⟩
    · simp at hr4
  · intro r hr
    rcases List.mem_cons.mp hr with h | hr2
    · subst h
      rcases sample_min emb regions _ (-1) hm1 with ⟨ha, hb, hc⟩
      exact ⟨_, rfl, ha, hb, hc⟩
    rcases List.mem_cons.mp hr2 with h | hr3
    · subst h
      rcases sample_min emb regions _ 0 hm2 with ⟨ha, hb, hc⟩
      exact ⟨_, rfl, ha, hb, hc⟩
    rcases List.mem_cons.mp hr3 with h | hr4
    · subst h
      rcases sample_min emb regions _ 1 hm3 with ⟨ha, hb, hc⟩
      exact ⟨_, rfl, ha, hb, hc⟩
    · simp at hr4

theorem C5_prototypes_and_nearest_witness :
    cW0.proto_euc.getD 0 0 =
      ((whereEq clW 0).map fun i => (rawW.getD i []).getD 0 0).sum /
        (((whereEq clW 0).length : ℕ) : ℚ) ∧
    cW0.proto_euc.getD 0 0 = 1/2 := by
  have h := C5_prototypes_and_nearest embW regsW rawW clW 2 [cW0, cW1] 0 0 cW0 1 1
    explainW (by decide) rfl rfl rfl
    (by intro row hr; fin_cases hr <;> rfl)
    (by intro row hr; fin_cases hr <;> rfl)
  refine ⟨h.1 0 (by norm_num), ?_⟩
  rw [h.1 0 (by norm_num)]
  norm_num [whereEq, rawW, clW, show List.range 3 = [0, 1, 2] from rfl]

/-- C6: the counterfactual emission keeps exactly the records with nonzero
verdict, and for each kept record with verdict v and each metric it reads
the exemplar at v and the exemplar at -v, which lie in the regions v and
-v respectively. -/
theorem C6_pair_emission (emb : List (List ℚ)) (regions : List ℤ)
    (raw : List (List ℚ)) (cl : List ℤ) (K : ℕ) (recs : List ClusterRecord)
    (hok : explain emb regions raw cl K = .ok recs) :
    (∀ cf, cf ∈ drifting_counterfactuals recs ↔ cf ∈ recs ∧ cf.region ≠ 0) ∧
    (∀ cf, cf ∈ drifting_counterfactuals recs →
      (cf.region = 1 ∨ cf.region = -1) ∧
      ∃ s1 s2 t1 t2,
        cf.sample_euc.lookup cf.region = some s1 ∧
        cf.sample_euc.lookup (-cf.region) = some s2 ∧
        cf.sample_rfk.lookup cf.region = some t1 ∧
        cf.sample_rfk.lookup (-cf.region) = some t2 ∧
        s1 < regions.length ∧ regions.getD s1 0 = cf.region ∧
        s2 < regions.length ∧ regions.getD s2 0 = -cf.region ∧
        t1 < regions.length ∧ regions.getD t1 0 = cf.region ∧
        t2 < regions.length ∧ regions.getD t2 0 = -cf.region ∧
        ((some s1, some s2), (some t1, some t2)) ∈ emitPairs recs) := by
  have hfilter : ∀ cf : ClusterRecord,
      cf ∈ drifting_counterfactuals recs ↔ cf ∈ recs ∧ cf.region ≠ 0 := by
    intro cf
    simp [drifting_counterfactuals, List.mem_filter, bne_iff_ne]
  refine ⟨hfilter, ?_⟩
  intro cf hcf
  obtain ⟨hmem, hnz⟩ := (hfilter cf).mp hcf
  have hok2 := hok
  unfold explain at hok2
  rcases mapE_ok_mem _ _ _ hok2 cf hmem with ⟨cid, hcidmem, hbr⟩
  obtain ⟨hm1, hm2, hm3, hceq⟩ := buildRecord_ok raw emb regions cl cid cf hbr
  have hreg : cf.region = ([-1, 0, 1] : List ℤ).getD
      (argmaxIdx (regionDist ((whereEq cl cid).map fun i => regions.getD i 0))) 0 := by
    rw [hceq]
  have he : cf.sample_euc =
      [(-1, pick raw (meanRows ((whereEq cl cid).map fun i => raw.getD i []))
              (whereEq regions (-1))),
       (0, pick raw (meanRows ((whereEq cl cid).map fun i => raw.getD i []))
              (whereEq regions 0)),
       (1, pick raw (meanRows ((whereEq cl cid).map fun i => raw.getD i []))
              (whereEq regions 1))] := by
    rw [hceq]
  have hk : cf.sample_rfk =
      [(-1, pick emb (meanRows ((whereEq cl cid).map fun i => emb.getD i []))
              (whereEq regions (-1))),
       (0, pick emb (meanRows ((whereEq cl cid).map fun i => emb.getD i []))
              (whereEq regions 0)),
       (1, pick emb (meanRows ((whereEq cl cid).map fun i => emb.getD i []))
              (whereEq regions 1))] := by
    rw [hceq]
  have hv : cf.region = 1 ∨ cf.region = -1 := by
    rcases verdict_getD_mem (argmaxIdx (regionDist
        ((whereEq cl cid).map fun i => regions.getD i 0))) with h | h | h
    · exact Or.inr (hreg.trans h)
    · exact absurd (hreg.trans h) hnz
    · exact Or.inl (hreg.trans h)
  refine ⟨hv, ?_⟩
  have hemit : ((cf.sample_euc.lookup cf.region, cf.sample_euc.lookup (-cf.region)),
      (cf.sample_rfk.lookup cf.region, cf.sample_rfk.lookup (-cf.region))) ∈
      emitPairs recs := by
    unfold emitPairs
    exact List.mem_map_of_mem _ hcf
  rcases hv with h1 | h1
  · rcases sample_min raw regions
        (meanRows ((whereEq cl cid).map fun i => raw.getD i [])) 1 hm3 with
      ⟨ha1, hb1, _⟩
    rcases sample_min raw regions
        (meanRows ((whereEq cl cid).map fun i => raw.getD i [])) (-1) hm1 with
      ⟨ha2, hb2, _⟩
    rcases sample_min emb regions
        (meanRows ((whereEq cl cid).map fun i => emb.getD i [])) 1 hm3 with
      ⟨ha3, hb3, _⟩
    rcases sample_min emb regions
        (meanRows ((whereEq cl cid).map fun i => emb.getD i [])) (-1) hm1 with
      ⟨ha4, hb4, _⟩
    have hl1 : cf.sample_euc.lookup cf.region =
        some (pick raw (meanRows ((whereEq cl cid).map fun i => raw.getD i []))
          (whereEq regions 1)) := by
      rw [he, h1]
      rfl
    have hl2 : cf.sample_euc.lookup (-cf.region) =
        some (pick raw (meanRows ((whereEq cl cid).map fun i => raw.getD i []))
          (whereEq regions (-1))) := by
      rw [he, h1]
      rfl
    have hl3 : cf.sample_rfk.lookup cf.region =
        some (pick emb (meanRows ((whereEq cl cid).map fun i => emb.getD i []))
          (whereEq regions 1)) := by
      rw [hk, h1]
      rfl
    have hl4 : cf.sample_rfk.lookup (-cf.region) =
        some (pick emb (meanRows ((whereEq cl cid).map fun i => emb.getD i []))
          (whereEq regions (-1))) := by
      rw [hk, h1]
      rfl
    refine ⟨_, _, _, _, hl1, hl2, hl3, hl4, ha1, by rw [h1]; exact hb1,
      ha2, by rw [h1]; exact hb2, ha3, by rw [h1]; exact hb3,
      ha4, by rw [h1]; exact hb4, ?_⟩
    rw [hl1, hl2, hl3, hl4] at hemit
    exact hemit
  · rcases sample_min raw regions
        (meanRows ((whereEq cl cid).map fun i => raw.getD i [])) (-1) hm1 with
      ⟨ha1, hb1, _⟩
    rcases sample_min raw regions
        (meanRows ((whereEq cl cid).map fun i => raw.getD i [])) 1 hm3 with
      ⟨ha2, hb2, _⟩
    rcases sample_min emb regions
        (meanRows ((whereEq cl cid).map fun i => emb.getD i [])) (-1) hm1 with
      ⟨ha3, hb3, _⟩
    rcases sample_min emb regions
        (meanRows ((whereEq cl cid).map fun i => emb.getD i [])) 1 hm3 with
      ⟨ha4, hb4, _⟩
    have hl1 : cf.sample_euc.lookup cf.region =
        some (pick raw (meanRows ((whereEq cl cid).map fun i => raw.getD i []))
          (whereEq regions (-1))) := by
      rw [he, h1]
      rfl
    have hl2 : cf.sample_euc.lookup (-cf.region) =
        some (pick raw (meanRows ((whereEq cl cid).map fun i => raw.getD i []))
          (whereEq regions 1)) := by
      rw [he, h1]
      rfl
    have hl3 : cf.sample_rfk.lookup cf.region =
        some (pick emb (meanRows ((whereEq cl cid).map fun i => emb.getD i []))
          (whereEq regions (-1))) := by
      rw [hk, h1]
      rfl
    have hl4 : cf.sample_rfk.lookup (-cf.region) =
        some (pick emb (meanRows ((whereEq cl cid).map fun i => emb.getD i []))
          (whereEq regions 1)) := by
      rw [hk, h1]
      rfl
    refine ⟨_, _, _, _, hl1, hl2, hl3, hl4, ha1, by rw [h1]; exact hb1,
      ha2, by rw [h1]; exact hb2, ha3, by rw [h1]; exact hb3,
      ha4, by rw [h1]; exact hb4, ?_⟩
    rw [hl1, hl2, hl3, hl4] at hemit
    exact hemit

theorem C6_pair_emission_witness :
    (cW0 ∈ drifting_counterfactuals [cW0, cW1] ↔
      cW0 ∈ [cW0, cW1] ∧ cW0.region ≠ 0) ∧
    (cW0.region = 1 ∨ cW0.region = -1) := by
  have h := C6_pair_emission embW regsW rawW clW 2 [cW0, cW1] explainW
  have hmem : cW0 ∈ drifting_counterfactuals [cW0, cW1] :=
    (h.1 cW0).mpr ⟨List.mem_cons_self _ _, by decide⟩
  exact ⟨h.1 cW0, (h.2 cW0 hmem).1⟩

end Dragon
